import Mathlib

/-!
Verification of the bytemaker bit-serialization library against its
natural-language specification.

The development shallowly embeds the relevant parts of the source:

* bit strings are modelled as `List Bool`, most-significant bit first,
  mirroring the 0/1 character strings and BitVector contents the source
  manipulates (each 0/1 character or bit maps to one `Bool`);
* Python integers are `Int`/`Nat`; Python floats are modelled exactly as
  dyadic rationals (they are binary floating point values, so every finite
  double is `m / 2^e` with the sign kept separately);
* fallible code (raise statements) returns `Except String`;
* the mutable receiver of `BitVector.replace` is threaded explicitly, with
  the loop written on fuel since the source loop need not terminate.

Definitions are translated from the source files of the repository
(bytemaker/bittypes/int.py, bytemaker/bittypes/float.py,
bytemaker/bittypes/bittype.py, bytemaker/bits.py,
bytemaker/bitvector/bitvector_with_bitarray_speedup.py, bytemaker/utils.py,
bytemaker/conversions/aggregate_types.py); the few places where the source
delegates to a host capability (struct.pack, the bitarray C extension) are
modelled from their documented behavior and marked as such.
-/

/-! ## Bit-string utilities

The source renders integers through Python string operations:
`bin(n)[2:]`, `str.zfill`, `format(n, "0{L}b")`, `int(s, 2)`.  These are
embedded below on `List Bool` (most-significant bit first).
-/

/-- Value of a bit string read most-significant-bit first, as Python
`int(bitstring, 2)` computes it. -/
def bitsToNat (l : List Bool) : Nat :=
  l.foldl (fun a b => 2 * a + cond b 1 0) 0

/-- Value of a least-significant-bit-first bit list (helper for reasoning
about `pyBin`, which produces digits low bit first before reversal). -/
def lsbVal : List Bool → Nat
  | [] => 0
  | b :: bs => cond b 1 0 + 2 * lsbVal bs

/-- Binary digits of `n`, least significant first; the first argument is
fuel (`n` itself suffices), making the definition structurally recursive
so that the kernel can evaluate it. -/
def binAux : Nat → Nat → List Bool
  | 0, _ => []
  | fuel + 1, n => if n = 0 then [] else decide (n % 2 = 1) :: binAux fuel (n / 2)

/-- Python `bin(n)[2:]` for `n ≥ 0`: the minimal binary rendering of `n`,
except that 0 renders as the single digit 0. -/
def pyBin (n : Nat) : List Bool :=
  if n = 0 then [false] else (binAux n n).reverse

/-- Python `str.zfill` on a digit string: left-pad with 0 digits up to
width `L`; a longer string is returned unchanged (never truncated). -/
def pyZfill (l : List Bool) (L : Nat) : List Bool :=
  List.replicate (L - l.length) false ++ l

theorem bitsToNat_foldl (l : List Bool) (a : Nat) :
    l.foldl (fun a b => 2 * a + cond b 1 0) a = a * 2 ^ l.length + bitsToNat l := by
  induction l generalizing a with
  | nil => simp [bitsToNat]
  | cons b bs ih =>
      simp only [List.foldl_cons, bitsToNat, List.length_cons]
      rw [ih, ih (2 * 0 + cond b 1 0)]
      ring

theorem bitsToNat_cons (b : Bool) (l : List Bool) :
    bitsToNat (b :: l) = (cond b 1 0) * 2 ^ l.length + bitsToNat l := by
  simp only [bitsToNat, List.foldl_cons]
  rw [← bitsToNat]
  rw [bitsToNat_foldl]
  ring_nf

theorem bitsToNat_lt (l : List Bool) : bitsToNat l < 2 ^ l.length := by
  induction l with
  | nil => simp [bitsToNat]
  | cons b bs ih =>
      rw [bitsToNat_cons]
      cases b <;> simp only [cond] <;> simp only [List.length_cons, pow_succ] <;> omega

theorem bitsToNat_append (l₁ l₂ : List Bool) :
    bitsToNat (l₁ ++ l₂) = bitsToNat l₁ * 2 ^ l₂.length + bitsToNat l₂ := by
  induction l₁ with
  | nil => simp [bitsToNat]
  | cons b bs ih =>
      rw [List.cons_append, bitsToNat_cons, ih, bitsToNat_cons, List.length_append]
      ring_nf

theorem bitsToNat_replicate_false (n : Nat) :
    bitsToNat (List.replicate n false) = 0 := by
  induction n with
  | zero => simp [bitsToNat]
  | succ k ih => rw [List.replicate_succ, bitsToNat_cons, ih]; simp

theorem bitsToNat_pyZfill (l : List Bool) (L : Nat) :
    bitsToNat (pyZfill l L) = bitsToNat l := by
  rw [pyZfill, bitsToNat_append, bitsToNat_replicate_false]
  simp

theorem pyZfill_length (l : List Bool) (L : Nat) :
    (pyZfill l L).length = max L l.length := by
  simp [pyZfill]
  omega

theorem bitsToNat_reverse (l : List Bool) :
    bitsToNat l.reverse = lsbVal l := by
  induction l with
  | nil => rfl
  | cons b bs ih =>
      rw [List.reverse_cons, bitsToNat_append, ih]
      cases b <;> simp [bitsToNat, lsbVal, bitsToNat_cons] <;> ring

theorem lsbVal_binAux (fuel n : Nat) (h : n ≤ fuel) :
    lsbVal (binAux fuel n) = n := by
  induction fuel generalizing n with
  | zero => interval_cases n; rfl
  | succ f ih =>
      by_cases hz : n = 0
      · simp [binAux, hz, lsbVal]
      · have hdiv : n / 2 ≤ f := by omega
        simp only [binAux, hz, if_false, lsbVal]
        rw [ih _ hdiv]
        rcases Nat.even_or_odd n with he | ho
        · have : n % 2 = 0 := Nat.even_iff.mp he
          simp [this]
          omega
        · have : n % 2 = 1 := Nat.odd_iff.mp ho
          simp [this]
          omega

theorem bitsToNat_pyBin (n : Nat) : bitsToNat (pyBin n) = n := by
  by_cases h : n = 0
  · simp [pyBin, h, bitsToNat]
  · rw [pyBin, if_neg h, bitsToNat_reverse, lsbVal_binAux n n le_rfl]

theorem binAux_length_le (fuel n L : Nat) (h : n < 2 ^ L) :
    (binAux fuel n).length ≤ L := by
  induction fuel generalizing n L with
  | zero => simp [binAux]
  | succ f ih =>
      by_cases hz : n = 0
      · simp [binAux, hz]
      · have hL : L ≠ 0 := by
          intro h0
          rw [h0] at h
          omega
        simp only [binAux, hz, if_false, List.length_cons]
        have hdiv : n / 2 < 2 ^ (L - 1) := by
          have : 2 ^ L = 2 * 2 ^ (L - 1) := by
            conv =>
              lhs
              rw [show L = 1 + (L - 1) by omega]
            rw [pow_add]
            ring
          omega
        have := ih (n / 2) (L - 1) hdiv
        omega

theorem pyBin_length_le (n L : Nat) (h : n < 2 ^ L) (hL : 1 ≤ L) :
    (pyBin n).length ≤ L := by
  by_cases hz : n = 0
  · simp [pyBin, hz]
    omega
  · rw [pyBin, if_neg hz, List.length_reverse]
    exact binAux_length_le n n L h

theorem pyZfill_pyBin_length (n L : Nat) (h : n < 2 ^ L) (hL : 1 ≤ L) :
    (pyZfill (pyBin n) L).length = L := by
  rw [pyZfill_length]
  have := pyBin_length_le n L h hL
  omega

/-- The most significant bit of a nonempty fixed-width bit string is set
precisely when the value reaches the top half of the range. -/
theorem head_true_iff (b : Bool) (l : List Bool) :
    b = true ↔ 2 ^ l.length ≤ bitsToNat (b :: l) := by
  rw [bitsToNat_cons]
  have := bitsToNat_lt l
  cases b <;> simp <;> omega

/-- Complementing every bit of a bit string reflects the value within the
width: this is the arithmetic heart of the ones-complement encoding. -/
theorem bitsToNat_map_not (l : List Bool) :
    bitsToNat (l.map (fun d => !d)) = 2 ^ l.length - 1 - bitsToNat l := by
  induction l with
  | nil => simp [bitsToNat]
  | cons b bs ih =>
      rw [List.map_cons, bitsToNat_cons, bitsToNat_cons, ih]
      have h1 := bitsToNat_lt bs
      have h2 : (1 : Nat) ≤ 2 ^ bs.length := Nat.one_le_two_pow
      cases b <;> simp only [Bool.not_true, Bool.not_false, cond] <;>
        simp [List.length_cons, List.length_map, pow_succ] <;> omega

/-! ## Integer codec (src/bytemaker/bittypes/int.py)

`Int.to_bitstring` renders a Python int into a fixed-width bit string in
one of three signed representations; `Int.to_pyint` decodes one.  The
three helper encoders below mirror the local functions
`unsigned_int_to_bitstring`, `int_to_twos_complement`,
`int_to_ones_complement` and `int_to_signed_magnitude`.
-/

/-- The three signed-integer representation formats the source supports
(the rep_format / bin_format literals of int.py). -/
inductive IntFmt where
  | twos
  | signedMagnitude
  | ones
deriving DecidableEq

/-- Mirrors unsigned_int_to_bitstring: range check, then
bin(n)[2:].zfill(bit_length). -/
def unsignedIntToBitstring (n : Int) (L : Nat) : Except String (List Bool) :=
  if n < 0 ∨ (2 ^ L : Int) ≤ n then
    .error "Value out of range for the specified bit_length"
  else
    .ok (pyZfill (pyBin n.toNat) L)

/-- Mirrors int_to_twos_complement: range check, add 2^L to a negative
value, then format(n, "0{L}b"). -/
def intToTwosComplement (n : Int) (L : Nat) : Except String (List Bool) :=
  if n < -(2 ^ (L - 1) : Int) ∨ (2 ^ (L - 1) : Int) ≤ n then
    .error "Value out of range for twos-complement notation"
  else
    let n2 : Int := if n < 0 then 2 ^ L + n else n
    .ok (pyZfill (pyBin n2.toNat) L)

/-- Mirrors int_to_ones_complement: symmetric range check, render the
magnitude at full width, complement every digit when negative. -/
def intToOnesComplement (n : Int) (L : Nat) : Except String (List Bool) :=
  if (2 ^ (L - 1) : Int) - 1 < |n| then
    .error "Value out of range for ones-complement notation"
  else
    match unsignedIntToBitstring |n| L with
    | .error e => .error e
    | .ok magnitude =>
        if 0 ≤ n then .ok magnitude
        else .ok (magnitude.map (fun d => !d))

/-- Mirrors int_to_signed_magnitude: symmetric range check, then a sign
digit followed by the magnitude rendered at width L-1. -/
def intToSignedMagnitude (n : Int) (L : Nat) : Except String (List Bool) :=
  if (2 ^ (L - 1) : Int) - 1 < |n| then
    .error "Value out of range for sign-magnitude notation"
  else if 0 ≤ n then
    match unsignedIntToBitstring n (L - 1) with
    | .error e => .error e
    | .ok mag => .ok (false :: mag)
  else
    match unsignedIntToBitstring (-n) (L - 1) with
    | .error e => .error e
    | .ok mag => .ok (true :: mag)

/-- Mirrors Int.to_bitstring with signed=True and an explicit bit_length:
reject a non-positive width, then dispatch on the representation format. -/
def toBitstring (v : Int) (L : Nat) (fmt : IntFmt) : Except String (List Bool) :=
  if L = 0 then .error "bit_length must be a positive integer"
  else
    match fmt with
    | .twos => intToTwosComplement v L
    | .signedMagnitude => intToSignedMagnitude v L
    | .ones => intToOnesComplement v L

/-- Mirrors Int.to_pyint with signed=True: reject the empty bit string,
then decode under the chosen format (twos complement subtracts 2^width
when the first digit is 1; sign-magnitude reads the first digit as a pure
sign; ones complement complements-then-negates). -/
def toPyint (bs : List Bool) (fmt : IntFmt) : Except String Int :=
  match bs with
  | [] => .error "bitstring cannot be empty"
  | b :: rest =>
      .ok <|
        match fmt with
        | .twos =>
            if b then (bitsToNat (b :: rest) : Int) - 2 ^ (b :: rest).length
            else (bitsToNat (b :: rest) : Int)
        | .signedMagnitude =>
            if b then -(bitsToNat rest : Int) else (bitsToNat rest : Int)
        | .ones =>
            if b then -((2 ^ ((b :: rest).length - 1) : Int) - bitsToNat rest - 1)
            else (bitsToNat (b :: rest) : Int)

/-- The representable range of each format at width L, as the spec states
it: twos complement reaches one further negative value than the two
symmetric formats. -/
def fmtInRange (fmt : IntFmt) (v : Int) (L : Nat) : Prop :=
  match fmt with
  | .twos => -(2 ^ (L - 1) : Int) ≤ v ∧ v < 2 ^ (L - 1)
  | .signedMagnitude => |v| ≤ (2 ^ (L - 1) : Int) - 1
  | .ones => |v| ≤ (2 ^ (L - 1) : Int) - 1

instance (fmt : IntFmt) (v : Int) (L : Nat) : Decidable (fmtInRange fmt v L) := by
  unfold fmtInRange
  cases fmt <;> infer_instance

theorem pow_int_nat (L : Nat) : ((2 ^ L : Nat) : Int) = 2 ^ L := by
  push_cast
  rfl

theorem two_pow_pred_mul_two (L : Nat) (hL : 1 ≤ L) :
    (2 ^ (L - 1) : Int) * 2 = 2 ^ L := by
  rw [← pow_succ]
  congr 1
  omega


theorem toPyint_sm_eval (b : Bool) (rest : List Bool) :
    toPyint (b :: rest) .signedMagnitude
      = .ok (if b then -(bitsToNat rest : Int) else (bitsToNat rest : Int)) := rfl

theorem toPyint_twos_eval (b : Bool) (rest : List Bool) :
    toPyint (b :: rest) .twos
      = .ok (if 2 ^ rest.length ≤ bitsToNat (b :: rest)
             then (bitsToNat (b :: rest) : Int) - 2 ^ (b :: rest).length
             else (bitsToNat (b :: rest) : Int)) := by
  cases b with
  | true =>
      rw [if_pos ((head_true_iff true rest).mp rfl)]
      rfl
  | false =>
      rw [if_neg (fun hc => Bool.false_ne_true ((head_true_iff false rest).mpr hc))]
      rfl

theorem toPyint_ones_eval (b : Bool) (rest : List Bool) :
    toPyint (b :: rest) .ones
      = .ok (if b then -((2 ^ rest.length : Int) - bitsToNat rest - 1)
             else (bitsToNat (b :: rest) : Int)) := by
  cases b <;> rfl

theorem roundtrip_twos (v : Int) (L : Nat) (hL : 1 ≤ L)
    (h1 : -(2 ^ (L - 1) : Int) ≤ v) (h2 : v < 2 ^ (L - 1)) :
    ∃ bs, intToTwosComplement v L = .ok bs ∧ toPyint bs .twos = .ok v := by
  have hpow := two_pow_pred_mul_two L hL
  have hpos : (0 : Int) < 2 ^ (L - 1) := by positivity
  set n2 : Int := if v < 0 then 2 ^ L + v else v with hn2
  have hn2nonneg : 0 ≤ n2 := by
    rw [hn2]
    split <;> omega
  have hn2lt : n2 < 2 ^ L := by
    rw [hn2]
    split <;> omega
  set m := n2.toNat with hm
  have hmInt : (m : Int) = n2 := Int.toNat_of_nonneg hn2nonneg
  have hmlt : m < 2 ^ L := by
    have : (m : Int) < ((2 ^ L : Nat) : Int) := by
      rw [hmInt, pow_int_nat]
      exact hn2lt
    exact_mod_cast this
  have hlen : (pyZfill (pyBin m) L).length = L := pyZfill_pyBin_length m L hmlt hL
  have hval : bitsToNat (pyZfill (pyBin m) L) = m := by
    rw [bitsToNat_pyZfill, bitsToNat_pyBin]
  have henc : intToTwosComplement v L = .ok (pyZfill (pyBin m) L) := by
    unfold intToTwosComplement
    rw [if_neg (by push_neg; exact ⟨h1, h2⟩)]
  obtain ⟨b, rest, hcons⟩ : ∃ b rest, pyZfill (pyBin m) L = b :: rest := by
    cases hb : pyZfill (pyBin m) L with
    | nil => rw [hb] at hlen; simp at hlen; omega
    | cons x xs => exact ⟨x, xs, rfl⟩
  have hrest : rest.length = L - 1 := by
    rw [hcons] at hlen
    simp at hlen
    omega
  have hcons_val : bitsToNat (b :: rest) = m := by rw [← hcons, hval]
  have hcons_len : (b :: rest).length = L := by rw [← hcons, hlen]
  refine ⟨_, henc, ?_⟩
  rw [hcons, toPyint_twos_eval, hcons_val, hcons_len, hrest]
  by_cases hv : v < 0
  · have hmge : 2 ^ (L - 1) ≤ m := by
      have : ((2 ^ (L - 1) : Nat) : Int) ≤ (m : Int) := by
        rw [hmInt, pow_int_nat, hn2, if_pos hv]
        omega
      exact_mod_cast this
    rw [if_pos hmge]
    congr 1
    rw [hmInt, hn2, if_pos hv, ← pow_int_nat]
    push_cast
    ring
  · have hmlt' : m < 2 ^ (L - 1) := by
      have : (m : Int) < ((2 ^ (L - 1) : Nat) : Int) := by
        rw [hmInt, pow_int_nat, hn2, if_neg hv]
        exact h2
      exact_mod_cast this
    rw [if_neg (by omega)]
    congr 1
    rw [hmInt, hn2, if_neg hv]

theorem roundtrip_ones (v : Int) (L : Nat) (hL : 1 ≤ L)
    (hr : |v| ≤ (2 ^ (L - 1) : Int) - 1) :
    ∃ bs, intToOnesComplement v L = .ok bs ∧ toPyint bs .ones = .ok v := by
  have hpow := two_pow_pred_mul_two L hL
  have hpos : (0 : Int) < 2 ^ (L - 1) := by positivity
  set m := |v|.toNat with hm
  have hmInt : (m : Int) = |v| := Int.toNat_of_nonneg (abs_nonneg v)
  have hmlt : m < 2 ^ (L - 1) := by
    have : (m : Int) < ((2 ^ (L - 1) : Nat) : Int) := by
      rw [hmInt, pow_int_nat]
      omega
    exact_mod_cast this
  have hmltL : m < 2 ^ L := by
    have h1 : (2 : Nat) ^ (L - 1) ≤ 2 ^ L := Nat.pow_le_pow_right (by omega) (by omega)
    omega
  have hunsigned : unsignedIntToBitstring |v| L = .ok (pyZfill (pyBin m) L) := by
    unfold unsignedIntToBitstring
    rw [if_neg (by push_neg; exact ⟨abs_nonneg v, by omega⟩), hm]
  have hlen : (pyZfill (pyBin m) L).length = L := pyZfill_pyBin_length m L hmltL hL
  have hval : bitsToNat (pyZfill (pyBin m) L) = m := by
    rw [bitsToNat_pyZfill, bitsToNat_pyBin]
  obtain ⟨b, rest, hcons⟩ : ∃ b rest, pyZfill (pyBin m) L = b :: rest := by
    cases hb : pyZfill (pyBin m) L with
    | nil => rw [hb] at hlen; simp at hlen; omega
    | cons x xs => exact ⟨x, xs, rfl⟩
  have hrest : rest.length = L - 1 := by
    rw [hcons] at hlen
    simp at hlen
    omega
  have hb : b = false := by
    cases hbv : b with
    | false => rfl
    | true =>
        have := (head_true_iff b rest).mp hbv
        rw [← hcons, hval, hrest] at this
        omega
  have hrest_val : bitsToNat rest = m := by
    have hx : bitsToNat (b :: rest) = m := by rw [← hcons, hval]
    rw [hb, bitsToNat_cons] at hx
    simpa using hx
  by_cases hv : 0 ≤ v
  · have henc : intToOnesComplement v L = .ok (pyZfill (pyBin m) L) := by
      unfold intToOnesComplement
      rw [if_neg (by omega), hunsigned]
      simp [hv]
    refine ⟨_, henc, ?_⟩
    rw [hcons, hb, toPyint_ones_eval]
    simp only [Bool.false_eq_true, reduceIte]
    congr 1
    have : bitsToNat (false :: rest) = m := by
      rw [bitsToNat_cons]
      simpa using hrest_val
    rw [this, hmInt, abs_of_nonneg hv]
  · have henc : intToOnesComplement v L =
        .ok ((pyZfill (pyBin m) L).map (fun d => !d)) := by
      unfold intToOnesComplement
      rw [if_neg (by omega), hunsigned]
      simp [hv]
    refine ⟨_, henc, ?_⟩
    rw [hcons, hb, List.map_cons]
    simp only [Bool.not_false]
    rw [toPyint_ones_eval]
    simp only [reduceIte]
    congr 1
    have hmap := bitsToNat_map_not rest
    rw [hrest_val, hrest] at hmap
    have hcast : (bitsToNat (rest.map (fun d => !d)) : Int)
        = ((2 ^ (L - 1) : Nat) : Int) - 1 - m := by
      rw [hmap]
      have : m + 1 ≤ 2 ^ (L - 1) := by omega
      omega
    rw [List.length_map, hrest, hcast, pow_int_nat, hmInt, abs_of_neg (by omega)]
    ring

theorem roundtrip_sm (v : Int) (L : Nat) (hL : 1 ≤ L)
    (hr : |v| ≤ (2 ^ (L - 1) : Int) - 1) :
    ∃ bs, intToSignedMagnitude v L = .ok bs ∧ toPyint bs .signedMagnitude = .ok v := by
  have hpos : (0 : Int) < 2 ^ (L - 1) := by positivity
  by_cases hv : 0 ≤ v
  · set m := v.toNat with hm
    have hmInt : (m : Int) = v := Int.toNat_of_nonneg hv
    have habs := abs_of_nonneg hv
    have hunsigned : unsignedIntToBitstring v (L - 1) = .ok (pyZfill (pyBin m) (L - 1)) := by
      unfold unsignedIntToBitstring
      rw [if_neg (by push_neg; exact ⟨hv, by omega⟩), hm]
    have henc : intToSignedMagnitude v L = .ok (false :: pyZfill (pyBin m) (L - 1)) := by
      unfold intToSignedMagnitude
      rw [if_neg (by omega), if_pos hv, hunsigned]
    refine ⟨_, henc, ?_⟩
    rw [toPyint_sm_eval]
    simp only [Bool.false_eq_true, reduceIte]
    congr 1
    rw [bitsToNat_pyZfill, bitsToNat_pyBin, hmInt]
  · set m := (-v).toNat with hm
    have hmInt : (m : Int) = -v := Int.toNat_of_nonneg (by omega)
    have habs := abs_of_neg (show v < 0 by omega)
    have hunsigned : unsignedIntToBitstring (-v) (L - 1) = .ok (pyZfill (pyBin m) (L - 1)) := by
      unfold unsignedIntToBitstring
      rw [if_neg (by push_neg; exact ⟨by omega, by omega⟩), hm]
    have henc : intToSignedMagnitude v L = .ok (true :: pyZfill (pyBin m) (L - 1)) := by
      unfold intToSignedMagnitude
      rw [if_neg (by omega), if_neg hv, hunsigned]
    refine ⟨_, henc, ?_⟩
    rw [toPyint_sm_eval]
    simp only [reduceIte]
    congr 1
    rw [bitsToNat_pyZfill, bitsToNat_pyBin, hmInt]
    ring

/-- C3: for every signed representation format (twos complement,
sign-magnitude, ones complement), every bit length L at least 1, and every
integer v representable at width L under that format, decoding the encoding
is the identity: to_pyint of to_bitstring(v, signed=True, bit_length=L,
format) under the same format returns v. -/
theorem C3_signed_roundtrip (fmt : IntFmt) (v : Int) (L : Nat) (hL : 1 ≤ L)
    (hr : fmtInRange fmt v L) :
    ∃ bs, toBitstring v L fmt = .ok bs ∧ toPyint bs fmt = .ok v := by
  have hL0 : L ≠ 0 := by omega
  unfold toBitstring
  rw [if_neg hL0]
  cases fmt with
  | twos => exact roundtrip_twos v L hL hr.1 hr.2
  | signedMagnitude => exact roundtrip_sm v L hL hr
  | ones => exact roundtrip_ones v L hL hr

/-- Witness for C3 at a concrete input: v = -5 round-trips through the
4-bit twos-complement encoding. -/
theorem C3_signed_roundtrip_witness :
    ∃ bs, toBitstring (-5) 4 .twos = .ok bs ∧ toPyint bs .twos = .ok (-5) :=
  C3_signed_roundtrip .twos (-5) 4 (by decide) (by decide)

/-- Whether an Except value is a success (the call did not raise). -/
def exceptIsOk {ε α : Type} : Except ε α → Bool
  | .ok _ => true
  | .error _ => false

/-- C5: to_bitstring succeeds exactly when the value fits the format's
range at the requested width: twos complement accepts [-2^(L-1), 2^(L-1)),
while sign-magnitude and ones complement are symmetric and reject the
negative extreme -2^(L-1) that twos complement accepts. -/
theorem C5_toBitstring_bounds (v : Int) (L : Nat) (hL : 1 ≤ L) :
    (exceptIsOk (toBitstring v L .twos) = true
        ↔ (-(2 ^ (L - 1) : Int) ≤ v ∧ v < 2 ^ (L - 1)))
    ∧ (exceptIsOk (toBitstring v L .signedMagnitude) = true
        ↔ |v| ≤ (2 ^ (L - 1) : Int) - 1)
    ∧ (exceptIsOk (toBitstring v L .ones) = true
        ↔ |v| ≤ (2 ^ (L - 1) : Int) - 1) := by
  have hL0 : L ≠ 0 := by omega
  have hpow := two_pow_pred_mul_two L hL
  have hpos : (0 : Int) < 2 ^ (L - 1) := by positivity
  have hle := le_abs_self v
  have hge := neg_abs_le v
  refine ⟨?_, ?_, ?_⟩
  · unfold toBitstring intToTwosComplement
    rw [if_neg hL0]
    by_cases hc : (v < -(2 ^ (L - 1) : Int) ∨ (2 ^ (L - 1) : Int) ≤ v)
    · rw [if_pos hc]
      simp only [exceptIsOk, Bool.false_eq_true, false_iff]
      omega
    · rw [if_neg hc]
      simp only [exceptIsOk, true_iff]
      omega
  · unfold toBitstring intToSignedMagnitude
    rw [if_neg hL0]
    by_cases hc : ((2 ^ (L - 1) : Int) - 1 < |v|)
    · rw [if_pos hc]
      simp only [exceptIsOk, Bool.false_eq_true, false_iff]
      omega
    · rw [if_neg hc]
      by_cases hv : 0 ≤ v
      · rw [if_pos hv]
        have hu : unsignedIntToBitstring v (L - 1)
            = .ok (pyZfill (pyBin v.toNat) (L - 1)) := by
          unfold unsignedIntToBitstring
          rw [if_neg (by push_neg; exact ⟨hv, by omega⟩)]
        rw [hu]
        simp only [exceptIsOk, true_iff]
        omega
      · rw [if_neg hv]
        have hu : unsignedIntToBitstring (-v) (L - 1)
            = .ok (pyZfill (pyBin (-v).toNat) (L - 1)) := by
          unfold unsignedIntToBitstring
          rw [if_neg (by push_neg; exact ⟨by omega, by omega⟩)]
        rw [hu]
        simp only [exceptIsOk, true_iff]
        omega
  · unfold toBitstring intToOnesComplement
    rw [if_neg hL0]
    by_cases hc : ((2 ^ (L - 1) : Int) - 1 < |v|)
    · rw [if_pos hc]
      simp only [exceptIsOk, Bool.false_eq_true, false_iff]
      omega
    · rw [if_neg hc]
      have hu : unsignedIntToBitstring |v| L
          = .ok (pyZfill (pyBin |v|.toNat) L) := by
        unfold unsignedIntToBitstring
        rw [if_neg (by push_neg; exact ⟨abs_nonneg v, by omega⟩)]
      rw [hu]
      by_cases hv : 0 ≤ v
      · simp only [if_pos hv, exceptIsOk, true_iff]
        omega
      · simp only [if_neg hv, exceptIsOk, true_iff]
        omega

/-- Witness for C5 at the claim's concrete 8-bit boundary inputs:
twos complement accepts -128 and 127 but rejects -129 and 128, and the two
symmetric formats reject -128. -/
theorem C5_toBitstring_bounds_witness :
    exceptIsOk (toBitstring (-128) 8 .twos) = true
    ∧ exceptIsOk (toBitstring (-129) 8 .twos) = false
    ∧ exceptIsOk (toBitstring 127 8 .twos) = true
    ∧ exceptIsOk (toBitstring 128 8 .twos) = false
    ∧ exceptIsOk (toBitstring (-128) 8 .signedMagnitude) = false
    ∧ exceptIsOk (toBitstring (-128) 8 .ones) = false := by
  have h := C5_toBitstring_bounds (-128) 8 (by decide)
  exact ⟨h.1.mpr (by decide), by decide, by decide, by decide, by decide, by decide⟩

/-! ## Typed bit-value width invariant (src/bytemaker/bittypes/int.py,
src/bytemaker/bittypes/bittype.py)

The BitType.bits setter enforces len(bits) == num_bits, but the UInt value
setter stores `self._bits = BitVector(bin(value)[2:])` directly into the
private field, bypassing that check and never padding to the declared
width.
-/

/-- Mirrors the UInt.value setter (int.py line 538): the stored bit string
is bin(value)[2:], whose length is the minimal binary length of the value;
the declared width num_bits is not consulted at all. -/
def uintValueSetterBits (value : Nat) : List Bool :=
  pyBin value

/-- Mirrors the BitType.bits setter (bittype.py lines 149-159): a bit
string whose length differs from the declared width is rejected. -/
def bitTypeSetBits (numBits : Nat) (bits : List Bool) : Except String (List Bool) :=
  if bits.length ≠ numBits then .error "Expected num_bits bits"
  else .ok bits

/-- C1: the width invariant len(x.bits) == declared_width fails on the
code: assigning value 5 to a width-7 UInt stores the 3-bit string 101
(bin(5)[2:]) into _bits, a string the width-checking bits setter of the
same class would reject.  The spec's invariant (and the bits setter's own
check) is the intent; the UInt value setter bypasses it. -/
theorem C1_uint_value_setter_breaks_width_invariant :
    uintValueSetterBits 5 = [true, false, true]
    ∧ (uintValueSetterBits 5).length = 3
    ∧ bitTypeSetBits 7 (uintValueSetterBits 5) = .error "Expected num_bits bits" := by
  exact ⟨by decide, by decide, rfl⟩

/-! ## Float codec (src/bytemaker/bittypes/float.py)

Float.to_binstring encodes a Python float into 1 + E + M bits.  Python
floats are IEEE-754 doubles, i.e. dyadic rationals: a finite value is
modelled exactly as a sign plus a magnitude mant / 2 ^ exp with
mant, exp : Nat.  Every arithmetic step the source performs on the float
(abs, int(), subtraction of the integral part, doubling, comparison) is
exact on such values, so the embedding loses nothing.
-/

/-- A Python float: a finite dyadic value (-1)^sign * mant / 2^exp, or one
of the non-finite values. -/
inductive PyFloat where
  | finite (sign : Bool) (mant : Nat) (exp : Nat)
  | inf
  | negInf
  | nan
deriving DecidableEq

/-- Python `num == 0` on a float: true for +0.0 and -0.0, false for the
infinities and NaN. -/
def pyEqZero : PyFloat → Bool
  | .finite _ m _ => m == 0
  | _ => false

/-- Python `num == float("inf")`. -/
def pyEqPosInf : PyFloat → Bool
  | .inf => true
  | _ => false

/-- Python `num == -float("inf")`. -/
def pyEqNegInf : PyFloat → Bool
  | .negInf => true
  | _ => false

/-- Python `num == float("NaN")` (float.py line 145): under IEEE-754
equality nothing compares equal to NaN, not even NaN itself, so this test
is false for every input; the source's NaN special case is dead code. -/
def pyEqNanCmp : PyFloat → Bool
  | _ => false

/-- Mirrors frac_to_bin: repeatedly double the fractional part
num / 2 ^ exp (kept exact as a pair of naturals) and emit the integer bit,
stopping when the fraction reaches zero or the bit budget is spent. -/
def fracToBin (num exp : Nat) : Nat → List Bool
  | 0 => []
  | bits + 1 =>
      if num = 0 then []
      else
        let num2 := 2 * num
        let bit := num2 / 2 ^ exp
        decide (bit = 1) :: fracToBin (num2 - bit * 2 ^ exp) exp bits

/-- Mirrors Float.to_binstring (float.py lines 121-209) on the exact
dyadic model of the input float.  The first four branches are the source's
special cases in order; note the NaN branch tests `num == float("NaN")`,
which IEEE equality makes unconditionally false, so a NaN input falls
through to the general algorithm where `int(abs_num)` raises ValueError.
The negative-biased-exponent case is modelled as an error; Python would
instead format the negative integer into a malformed digit string, a case
outside every claim considered here. -/
def floatToBinstring (x : PyFloat) (E M : Nat) : Except String (List Bool) :=
  if pyEqZero x then .ok (false :: List.replicate (E + M) false)
  else if pyEqPosInf x then .ok (false :: (List.replicate E true ++ List.replicate M false))
  else if pyEqNegInf x then .ok (true :: (List.replicate E true ++ List.replicate M false))
  else if pyEqNanCmp x then .ok (false :: (List.replicate (E + 1) true ++ List.replicate (M - 1) false))
  else
    match x with
    | .inf => .error "unreachable: positive infinity is handled above"
    | .negInf => .error "unreachable: negative infinity is handled above"
    | .nan => .error "cannot convert float NaN to integer"
    | .finite sign mant exp =>
        let integralPart := mant / 2 ^ exp
        let fracNum := mant % 2 ^ exp
        let integralBin := pyBin integralPart
        let fracBin := fracToBin fracNum exp (M + 1)
        let combined := integralBin ++ fracBin
        match combined.findIdx? (fun d => d = true) with
        | none => .error "substring not found"
        | some firstOne =>
            let exponent : Int := (integralBin.length : Int) - firstOne - 1
            let biased : Int := exponent + ((2 ^ (E - 1) - 1 : Nat) : Int)
            if biased < 0 then .error "negative biased exponent"
            else
              let mantBits := combined.drop (firstOne + 1)
              let mantField := mantBits.take M ++ List.replicate (M - (mantBits.take M).length) false
              .ok (sign :: (pyZfill (pyBin biased.toNat) E ++ mantField))

/-- Normalization loop for the packed-float model: scale the dyadic
magnitude mant / 2^exp into [1, 2) by repeated exact doubling or halving,
accumulating the binary exponent; the first argument is fuel. -/
def normLoop : Nat → Nat → Nat → Int → (Nat × Nat × Int)
  | 0, mant, exp, ex => (mant, exp, ex)
  | fuel + 1, mant, exp, ex =>
      if mant < 2 ^ exp then normLoop fuel (2 * mant) exp (ex - 1)
      else if 2 ^ (exp + 1) ≤ mant then normLoop fuel mant (exp + 1) (ex + 1)
      else (mant, exp, ex)

/-- Round num / den to the nearest integer, ties to even (den > 0). -/
def rneNat (num den : Nat) : Nat :=
  let q := num / den
  let r := num % den
  if 2 * r < den then q
  else if den < 2 * r then q + 1
  else if q % 2 = 0 then q else q + 1

/-- Modelled from the spec: the struct-packed fast path of
StructPackedBitType.value (bittype.py lines 341-346) delegates to the host
capability struct.pack with format letter f, i.e. IEEE-754 binary32
conversion with round-to-nearest-even; that host packing routine is not
part of this repository, so it is modelled here for finite inputs whose
rounded magnitude lies in the binary32 normal range (zero is kept as a
signed zero pattern; other inputs are out of this model's scope and
error). -/
def packFloat32 (sign : Bool) (mant exp : Nat) : Except String (List Bool) :=
  if mant = 0 then .ok (sign :: List.replicate 31 false)
  else
    let norm := normLoop 5000 mant exp 0
    let m1 := norm.1
    let e1 := norm.2.1
    let ex := norm.2.2
    let k := rneNat (m1 * 2 ^ 23) (2 ^ e1)
    let k2 : Nat := if k = 2 ^ 24 then 2 ^ 23 else k
    let ex2 : Int := if k = 2 ^ 24 then ex + 1 else ex
    let biased : Int := ex2 + 127
    if biased < 1 ∨ 255 ≤ biased then .error "outside the binary32 normal range"
    else .ok (sign :: (pyZfill (pyBin biased.toNat) 8 ++ pyZfill (pyBin (k2 - 2 ^ 23)) 23))

/-- The 32-bit pattern 0x3F800000: sign 0, biased exponent 127, zero
mantissa. -/
def float32OnePattern : List Bool :=
  false :: (pyZfill (pyBin 127) 8 ++ List.replicate 23 false)

/-- C2 (amended): for exponent width 8 and mantissa width 23, the manual
algorithm Float.to_binstring and the struct-packed fast path both encode
1.0 as 0x3F800000 (sign 0, biased exponent 127, mantissa 0); the two paths
are not identical on every float, because the manual algorithm truncates
the mantissa while the packed path rounds to nearest-even. -/
theorem C2_float32_one_both_paths :
    floatToBinstring (.finite false 1 0) 8 23 = .ok float32OnePattern
    ∧ packFloat32 false 1 0 = .ok float32OnePattern
    ∧ bitsToNat float32OnePattern = 0x3F800000 := by
  refine ⟨by rfl, by rfl, by decide⟩

/-- C2 counterexample: at the double value 1 + 2^-23 + 2^-24 (exactly
representable, mantissa 2^24 + 3 over 2^24) the manual encoder truncates
to mantissa field 1 while the packed path rounds to nearest-even, giving
mantissa field 2: the bit patterns differ, so the two paths do not agree
on every float value. -/
theorem C2_paths_differ :
    floatToBinstring (.finite false (2 ^ 24 + 3) 24) 8 23
      ≠ packFloat32 false (2 ^ 24 + 3) 24 := by
  intro h
  have h1 : floatToBinstring (.finite false (2 ^ 24 + 3) 24) 8 23
      = .ok (false :: (pyZfill (pyBin 127) 8
          ++ (List.replicate 22 false ++ [true]))) := by rfl
  have h2 : packFloat32 false (2 ^ 24 + 3) 24
      = .ok (false :: (pyZfill (pyBin 127) 8
          ++ (pyZfill (pyBin 2) 23))) := by rfl
  rw [h1, h2] at h
  simp only [Except.ok.injEq] at h
  have := congrArg bitsToNat h
  revert this
  decide

/-- C6: the encoder's special cases.  Exact zero (either sign) encodes to
the all-zeros pattern and the two infinities encode to their fixed
sign / all-ones-exponent / zero-mantissa patterns, for every exponent
width E and mantissa width M; but the NaN special case never fires — the
test `num == float("NaN")` is false for every float under IEEE equality —
so a NaN input falls into the general algorithm and raises at
`int(abs_num)` instead of producing the designated fixed pattern
0 1^(E+1) 0^(M-1). -/
theorem C6_special_values (E M : Nat) (sign : Bool) (exp : Nat) :
    floatToBinstring (.finite sign 0 exp) E M
        = .ok (false :: List.replicate (E + M) false)
    ∧ floatToBinstring .inf E M
        = .ok (false :: (List.replicate E true ++ List.replicate M false))
    ∧ floatToBinstring .negInf E M
        = .ok (true :: (List.replicate E true ++ List.replicate M false))
    ∧ floatToBinstring .nan E M = .error "cannot convert float NaN to integer" := by
  refine ⟨?_, ?_, ?_, ?_⟩
  · simp [floatToBinstring, pyEqZero]
  · simp [floatToBinstring, pyEqZero, pyEqPosInf]
  · simp [floatToBinstring, pyEqZero, pyEqPosInf, pyEqNegInf]
  · simp [floatToBinstring, pyEqZero, pyEqPosInf, pyEqNegInf, pyEqNanCmp]

/-! ## Structural deserializer, bit path
(src/bytemaker/conversions/aggregate_types.py)

from_bits_aggregate dispatches on the target type: a unit type goes to
from_bits_individual, which first asserts that the number of bits equals
the unit type's declared width; a record (dataclass) type is checked
against the sum of its field widths and then sliced sequentially, one
field's declared width at a time, in declared field order.  Field types
form a tree (unit types and nested records), modelled as a mutual
inductive so that declared widths and the traversal recurse structurally.
-/

mutual

/-- A deserialization target type: a unit type of declared bit width, or a
record (dataclass) whose ordered fields are target types. -/
inductive AggTy where
  | unit : Nat → AggTy
  | record : AggTyList → AggTy

/-- The ordered field list of a record type. -/
inductive AggTyList where
  | nil : AggTyList
  | cons : AggTy → AggTyList → AggTyList

end

mutual

/-- A deserialized value: the bit slice consumed by a unit type, or the
record of deserialized field values. -/
inductive AggVal where
  | unit : List Bool → AggVal
  | record : AggValList → AggVal

/-- The ordered deserialized field values of a record. -/
inductive AggValList where
  | nil : AggValList
  | cons : AggVal → AggValList → AggValList

end

mutual

/-- Mirrors count_bits_in_unit_type: a unit type's declared width, or the
recursive sum of a record's field widths. -/
def widthTy : AggTy → Nat
  | .unit w => w
  | .record fs => widthFields fs

/-- Sum of the declared widths of a field list, in declared order. -/
def widthFields : AggTyList → Nat
  | .nil => 0
  | .cons t ts => widthTy t + widthFields ts

end

mutual

/-- Mirrors from_bits_aggregate: a unit target checks
len(bits) == declared width (from_bits_individual) and consumes the bits;
a record target checks len(bits) against the recursive width sum, then
slices the bits sequentially by declared field widths in declared order. -/
def fromBitsAggregate : AggTy → List Bool → Except String AggVal
  | .unit w, b =>
      if b.length ≠ w then .error "size mismatch between bits and unit type"
      else .ok (.unit b)
  | .record fs, b =>
      if b.length ≠ widthFields fs then .error "size mismatch between bits and record type"
      else
        match fromBitsFields fs b with
        | .error e => .error e
        | .ok vs => .ok (.record vs)

/-- The field loop of from_bits_aggregate: take the field's declared width
off the front of the bits, deserialize it recursively, and continue with
the rest. -/
def fromBitsFields : AggTyList → List Bool → Except String AggValList
  | .nil, _ => .ok .nil
  | .cons t ts, b =>
      match fromBitsAggregate t (b.take (widthTy t)) with
      | .error e => .error e
      | .ok v =>
          match fromBitsFields ts (b.drop (widthTy t)) with
          | .error e => .error e
          | .ok vs => .ok (.cons v vs)

end

mutual

/-- Stated from the spec's words, for comparison with the code's
traversal: slice the bits sequentially, consuming each field's declared
width in declared field order, with no checks. -/
def sliceDecode : AggTy → List Bool → AggVal
  | .unit _, b => .unit b
  | .record fs, b => .record (sliceDecodeFields fs b)

/-- Sequential unchecked slicing of a field list. -/
def sliceDecodeFields : AggTyList → List Bool → AggValList
  | .nil, _ => .nil
  | .cons t ts, b =>
      .cons (sliceDecode t (b.take (widthTy t))) (sliceDecodeFields ts (b.drop (widthTy t)))

end

mutual

theorem fromBitsAggregate_spec (t : AggTy) (b : List Bool) :
    (b.length = widthTy t → fromBitsAggregate t b = .ok (sliceDecode t b))
    ∧ (b.length ≠ widthTy t → ∃ msg, fromBitsAggregate t b = .error msg) := by
  cases t with
  | unit w =>
      constructor
      · intro h
        simp only [widthTy] at h
        simp [fromBitsAggregate, sliceDecode, h]
      · intro h
        simp only [widthTy] at h
        exact ⟨"size mismatch between bits and unit type",
          by simp [fromBitsAggregate, h]⟩
  | record fs =>
      constructor
      · intro h
        simp only [widthTy] at h
        have := fromBitsFields_spec fs b h
        simp [fromBitsAggregate, sliceDecode, h, this]
      · intro h
        simp only [widthTy] at h
        exact ⟨"size mismatch between bits and record type",
          by simp [fromBitsAggregate, h]⟩

theorem fromBitsFields_spec (ts : AggTyList) (b : List Bool) :
    (b.length = widthFields ts → fromBitsFields ts b = .ok (sliceDecodeFields ts b)) := by
  cases ts with
  | nil => intro h; rfl
  | cons t rest =>
      intro h
      simp only [widthFields] at h
      have htake : (b.take (widthTy t)).length = widthTy t := by
        simp [List.length_take]
        omega
      have hdrop : (b.drop (widthTy t)).length = widthFields rest := by
        simp [List.length_drop]
        omega
      have h1 := (fromBitsAggregate_spec t (b.take (widthTy t))).1 htake
      have h2 := fromBitsFields_spec rest (b.drop (widthTy t)) hdrop
      simp [fromBitsFields, sliceDecodeFields, h1, h2]

end

/-- C4: for every non-array unit or record target type and every bit
vector, deserializing raises a size-mismatch error whenever the length
differs from the declared total bit width (never silently truncating or
padding), and on exact match it slices the bits sequentially, consuming
each field's declared width in declared field order. -/
theorem C4_deserialize_size_check (t : AggTy) (b : List Bool) :
    (b.length = widthTy t → fromBitsAggregate t b = .ok (sliceDecode t b))
    ∧ (b.length ≠ widthTy t → ∃ msg, fromBitsAggregate t b = .error msg) :=
  fromBitsAggregate_spec t b

/-! ## Structural deserializer, byte path
(src/bytemaker/conversions/aggregate_types.py, from_bytes_aggregate)

The byte-oriented mirror first reverses the whole buffer when
reverse_endianness is set, then dispatches: a unit target goes through
from_bytes_individual's 8*len(bytes) == declared-width check; a record
target checks the same equation against the recursive width sum, and then
slices the byte buffer with `bytes_obj[:field_size_in_bits]` — the
field's width in BITS used as a BYTE count — and recurses into the field
with the same reverse_endianness flag, which reverses the field's slice
again.  Both of those details are kept faithfully below; the leaf records
the flag it receives, mirroring the flag being forwarded to the native
bytes converters.  (The source also leaves `field_type` unbound when a
field's annotation is not a string; the embedding treats field types as
already resolved, which is the benign reading.)
-/

mutual

/-- A value produced by the byte-path deserializer: a unit leaf keeps the
byte slice it was handed together with the reverse_endianness flag that
was forwarded to its converter, and a record keeps its field values. -/
inductive ByteAggVal where
  | unitBytes : List Nat → Bool → ByteAggVal
  | record : ByteAggValList → ByteAggVal

/-- Ordered field values of a byte-path record. -/
inductive ByteAggValList where
  | nil : ByteAggValList
  | cons : ByteAggVal → ByteAggValList → ByteAggValList

end

mutual

/-- Mirrors from_bytes_aggregate (non-array path): reverse the whole
buffer when the flag is set; unit targets check 8 * len(bytes) against the
declared bit width (from_bytes_individual); record targets check the sum,
then slice `bytes_obj[:field_size_in_bits]` per field — the declared BIT
count used to slice BYTES, as the source does — and recurse with the same
reverse flag. -/
def fromBytesAggregate : AggTy → List Nat → Bool → Except String ByteAggVal
  | .unit w, bytes, rev =>
      let bytes1 := if rev then bytes.reverse else bytes
      if bytes1.length * 8 ≠ w then .error "byte size mismatch with unit type"
      else .ok (.unitBytes bytes1 rev)
  | .record fs, bytes, rev =>
      let bytes1 := if rev then bytes.reverse else bytes
      if bytes1.length * 8 ≠ widthFields fs then .error "byte size mismatch with record type"
      else
        match fromBytesFields fs bytes1 rev with
        | .error e => .error e
        | .ok vs => .ok (.record vs)

/-- The field loop of from_bytes_aggregate: field_bytes is
bytes_obj[:field_size_in_bits] (a BYTE slice of BIT length), deserialized
recursively with the same reverse_endianness flag. -/
def fromBytesFields : AggTyList → List Nat → Bool → Except String ByteAggValList
  | .nil, _, _ => .ok .nil
  | .cons t ts, bytes, rev =>
      match fromBytesAggregate t (bytes.take (widthTy t)) rev with
      | .error e => .error e
      | .ok v =>
          match fromBytesFields ts (bytes.drop (widthTy t)) rev with
          | .error e => .error e
          | .ok vs => .ok (.cons v vs)

end

/-- C8 (as the code actually behaves): with reverse_endianness=True the
record traversal does NOT consume the once-reversed buffer field by field.
First conjunct: a two-field record of 8-bit units over a 2-byte buffer
passes the top-level size check but fails inside the first field, because
the field slice is bytes_obj[:8] — the 8-BIT field width used as a BYTE
count — and the recursive call checks that slice (re-reversed) against
8 bits; the claim says this deserialization succeeds, consuming one byte
per field.  Second conjunct: a single-field record of one 16-bit unit
hands the field the buffer re-reversed back to its original order (the
whole-buffer reversal is undone by the per-field reversal, and the flag is
forwarded to the leaf converter a third time), where the claim says the
field consumes the once-reversed bytes with no additional per-field
reversal. -/
theorem C8_from_bytes_record_traversal_broken :
    fromBytesAggregate (.record (.cons (.unit 8) (.cons (.unit 8) .nil))) [171, 205] true
        = .error "byte size mismatch with unit type"
    ∧ fromBytesAggregate (.record (.cons (.unit 16) .nil)) [1, 2] true
        = .ok (.record (.cons (.unitBytes [1, 2] true) .nil)) := by
  exact ⟨rfl, rfl⟩

/-! ## Bitwise operations

Two implementations live in the repository.  The legacy Bits class
(src/bytemaker/bits.py, Bits.binop) implements the policy the spec
describes: without the expand flag the skip loops decrement the longer
operand's remaining count WITHOUT advancing its iterator, so the final
loop pairs both operands from their first bit and stops after
min(len(a), len(b)) steps; with expand, the longer operand's leading
excess bits are consumed and copied through first, and the op is then
applied to the right-aligned remainder.

The BitVector class (src/bytemaker/bitvector/
bitvector_with_bitarray_speedup.py, lines 683-753) instead delegates
`__and__`/`__or__`/`__xor__` straight to the bitarray C extension via
super(); bitarray's documented behavior for its bitwise operators is to
require operands of equal length and raise ValueError otherwise, which is
modelled below.
-/

/-- Mirrors Bits.binop (bits.py lines 106-137).  The two skip loops and
the final pairing loop translate as: if the operand lengths differ and
expand is set, the longer operand's first (length difference) bits are
emitted unchanged and the op pairs the rest; without expand the skip
loops only count down, leaving both iterators at the start, so the op
pairs the operands from position 0 and stops at the shorter length. -/
def bitsBinop (op : Bool → Bool → Bool) (a b : List Bool) (expand : Bool) : List Bool :=
  if a.length < b.length then
    if expand then
      b.take (b.length - a.length) ++ List.zipWith op a (b.drop (b.length - a.length))
    else
      List.zipWith op a b
  else if b.length < a.length then
    if expand then
      a.take (a.length - b.length) ++ List.zipWith op (a.drop (a.length - b.length)) b
    else
      List.zipWith op a b
  else
    List.zipWith op a b

/-- Modelled from the bitarray library's documented semantics, to which
BitVector.__and__/__or__/__xor__ delegate via super(): the bitwise
operators require bitarrays of equal length and raise ValueError
otherwise, operating position-wise on equal lengths. -/
def bitVectorBinop (op : Bool → Bool → Bool) (a b : List Bool) :
    Except String (List Bool) :=
  if a.length ≠ b.length then .error "bitarrays of equal length expected"
  else .ok (List.zipWith op a b)

/-- C7 (amended): the truncate-to-shorter policy the claim describes is
the legacy Bits.binop behavior — without expand the result has length
min(len(a), len(b)) and bit i equals op(a[i], b[i]) (both operands kept
from their left end, the longer one truncated), and with expand the
longer operand's leading excess bits are carried through unchanged — while
the BitVector class's own &, |, ^ instead require equal operand lengths
and raise ValueError when they differ. -/
theorem C7_bitwise_policies (op : Bool → Bool → Bool) (a b : List Bool) :
    (bitsBinop op a b false = List.zipWith op a b)
    ∧ ((bitsBinop op a b false).length = min a.length b.length)
    ∧ (∀ i : Nat, i < min a.length b.length →
        (bitsBinop op a b false).getD i false
          = op (a.getD i false) (b.getD i false))
    ∧ (bitVectorBinop op a b
        = if a.length = b.length then .ok (List.zipWith op a b)
          else .error "bitarrays of equal length expected") := by
  have hnonexp : bitsBinop op a b false = List.zipWith op a b := by
    unfold bitsBinop
    rcases Nat.lt_trichotomy a.length b.length with h | h | h
    · rw [if_pos h]
      simp
    · rw [if_neg (by omega), if_neg (by omega)]
    · rw [if_neg (by omega), if_pos h]
      simp
  refine ⟨hnonexp, ?_, ?_, ?_⟩
  · rw [hnonexp]
    simp [List.length_zipWith]
  · intro i hi
    rw [hnonexp]
    have hia : i < a.length := by omega
    have hib : i < b.length := by omega
    have hiz : i < (List.zipWith op a b).length := by
      simp [List.length_zipWith]
      omega
    rw [List.getD_eq_getElem _ _ hiz, List.getD_eq_getElem _ _ hia,
      List.getD_eq_getElem _ _ hib]
    exact List.getElem_zipWith ..
  · unfold bitVectorBinop
    by_cases h : a.length = b.length
    · rw [if_neg (by omega), if_pos h]
    · rw [if_pos h, if_neg h]

/-- C7 counterexample: the claim as stated — that the BitVector bitwise
operators truncate unequal-length operands to the shorter length instead
of raising — is false: AND of the one-bit vector 1 with the two-bit
vector 10 raises ValueError (the claim predicts the one-bit result 1). -/
theorem C7_bitvector_and_raises :
    bitVectorBinop (fun x y => x && y) [true] [true, false]
      = .error "bitarrays of equal length expected" := rfl

/-! ## Trie-based prefix/suffix matching
(src/bytemaker/utils.py Trie, src/bytemaker/bitvector/
bitvector_with_bitarray_speedup.py startswith/endswith)

A trie node has a children dict keyed by bit and a flag marking the end of
an inserted candidate.  An absent child is modelled by a dedicated
constructor, so `bit not in current.children` is a constructor test.
startswith converts the candidates, clamps the range, returns True
immediately when any candidate is empty, and otherwise walks the trie over
the bits of the range, returning True at the first node whose flag is set.
endswith inserts each candidate reversed and walks the range from its
right end leftwards, which is the same walk over the reversed range.
-/

/-- A trie over bits: `absent` is the missing-child case (`bit not in
current.children`); a node carries the end-of-candidate flag and its two
children. -/
inductive Trie where
  | absent
  | node (flag : Bool) (zero : Trie) (one : Trie)
deriving DecidableEq

/-- The child of a node under one bit; stepping from a missing node stays
missing. -/
def Trie.child : Trie → Bool → Trie
  | .absent, _ => .absent
  | .node _ z o, b => if b then o else z

/-- The end-of-candidate flag (is_start_of_prefix / is_end_of_suffix). -/
def Trie.flag : Trie → Bool
  | .absent => false
  | .node f _ _ => f

/-- Whether the node exists in the children dict. -/
def Trie.present : Trie → Bool
  | .absent => false
  | .node _ _ _ => true

/-- Mirrors the insertion loop of Trie.build_prefix_trie: walk the
candidate's bits, creating missing nodes, and set the flag at the end. -/
def trieInsert : Trie → List Bool → Trie
  | t, [] => .node true (t.child false) (t.child true)
  | t, b :: bs =>
      if b then .node t.flag (t.child false) (trieInsert (t.child true) bs)
      else .node t.flag (trieInsert (t.child false) bs) (t.child true)

/-- Mirrors Trie.build_prefix_trie: fold the candidates into an empty
root node. -/
def buildTrie (cands : List (List Bool)) : Trie :=
  cands.foldl trieInsert (.node false .absent .absent)

/-- Mirrors the matching loop of startswith: step into the child for each
bit of the range; a missing child fails, a set flag succeeds, and an
exhausted range fails. -/
def trieWalk : Trie → List Bool → Bool
  | _, [] => false
  | t, b :: bs =>
      let c := t.child b
      c.present && (c.flag || trieWalk c bs)

/-- Following a whole word from a node: true when the node reached at the
end of the word exists and has its flag set (the set of words the trie
stores). -/
def trieAccepts : Trie → List Bool → Bool
  | t, [] => t.flag
  | t, b :: bs => trieAccepts (t.child b) bs

theorem trieAccepts_absent (w : List Bool) : trieAccepts .absent w = false := by
  induction w with
  | nil => rfl
  | cons b bs ih => simpa [trieAccepts, Trie.child] using ih

theorem trieInsert_child (t : Trie) (b : Bool) (c : List Bool) :
    (trieInsert t (b :: c)).child b = trieInsert (t.child b) c := by
  cases b <;> simp [trieInsert, Trie.child]

theorem trieInsert_child_ne (t : Trie) (b x : Bool) (c : List Bool) (h : x ≠ b) :
    (trieInsert t (b :: c)).child x = t.child x := by
  cases b <;> cases x <;> simp_all [trieInsert, Trie.child]

theorem trieInsert_flag (t : Trie) (c : List Bool) :
    (trieInsert t c).flag = (c.isEmpty || t.flag) := by
  cases c with
  | nil => simp [trieInsert, Trie.flag]
  | cons b bs => cases b <;> simp [trieInsert, Trie.flag]

theorem trieInsert_accepts_self (t : Trie) (c : List Bool) :
    trieAccepts (trieInsert t c) c = true := by
  induction c generalizing t with
  | nil => simp [trieAccepts, trieInsert, Trie.flag]
  | cons b bs ih =>
      simp only [trieAccepts, trieInsert_child]
      exact ih (t.child b)

theorem trieInsert_accepts_mono (t : Trie) (c w : List Bool)
    (h : trieAccepts t w = true) : trieAccepts (trieInsert t c) w = true := by
  induction w generalizing t c with
  | nil =>
      simp only [trieAccepts] at h
      simp only [trieAccepts, trieInsert_flag, h, Bool.or_true]
  | cons x xs ih =>
      simp only [trieAccepts] at h
      cases c with
      | nil =>
          simp only [trieAccepts, trieInsert, Trie.child]
          cases x <;> simpa using h
      | cons b bs =>
          by_cases hxb : x = b
          · subst hxb
            simp only [trieAccepts, trieInsert_child]
            exact ih (t.child x) bs h
          · simp only [trieAccepts, trieInsert_child_ne t b x bs hxb]
            exact h

theorem trieInsert_accepts_sound (t : Trie) (c w : List Bool)
    (h : trieAccepts (trieInsert t c) w = true) :
    w = c ∨ trieAccepts t w = true := by
  induction w generalizing t c with
  | nil =>
      cases c with
      | nil => exact Or.inl rfl
      | cons b bs =>
          right
          simp only [trieAccepts] at h ⊢
          rw [trieInsert_flag] at h
          simpa using h
  | cons x xs ih =>
      cases c with
      | nil =>
          right
          simp only [trieAccepts, trieInsert, Trie.child] at h ⊢
          cases x <;> simpa using h
      | cons b bs =>
          by_cases hxb : x = b
          · subst hxb
            simp only [trieAccepts, trieInsert_child] at h
            rcases ih (t.child x) bs h with heq | hacc
            · exact Or.inl (by rw [heq])
            · exact Or.inr hacc
          · right
            simp only [trieAccepts, trieInsert_child_ne t b x bs hxb] at h
            exact h

theorem trieAccepts_root0 (w : List Bool) :
    trieAccepts (.node false .absent .absent) w = false := by
  cases w with
  | nil => rfl
  | cons b bs =>
      simp only [trieAccepts]
      cases b <;> simp [Trie.child, trieAccepts_absent]

theorem buildTrie_accepts (cands : List (List Bool)) (w : List Bool) :
    trieAccepts (buildTrie cands) w = true ↔ w ∈ cands := by
  unfold buildTrie
  suffices h : ∀ (t : Trie),
      trieAccepts (cands.foldl trieInsert t) w = true
        ↔ (w ∈ cands ∨ trieAccepts t w = true) by
    rw [h]
    constructor
    · rintro (hin | habs)
      · exact hin
      · rw [trieAccepts_root0] at habs
        exact absurd habs (by simp)
    · exact Or.inl
  intro t
  induction cands generalizing t with
  | nil => simp
  | cons c cs ih =>
      simp only [List.foldl_cons, List.mem_cons]
      rw [ih]
      constructor
      · rintro (hin | hacc)
        · exact Or.inl (Or.inr hin)
        · rcases trieInsert_accepts_sound t c w hacc with heq | hacc2
          · exact Or.inl (Or.inl heq)
          · exact Or.inr hacc2
      · rintro ((heq | hin) | hacc)
        · subst heq
          exact Or.inr (trieInsert_accepts_self t w)
        · exact Or.inl hin
        · exact Or.inr (trieInsert_accepts_mono t c w hacc)

theorem trieWalk_iff (t : Trie) (s : List Bool) :
    trieWalk t s = true
      ↔ ∃ p, p ≠ [] ∧ p.IsPrefix s ∧ trieAccepts t p = true := by
  induction s generalizing t with
  | nil =>
      simp only [trieWalk, Bool.false_eq_true, false_iff]
      rintro ⟨p, hne, hpre, _⟩
      exact hne (List.prefix_nil.mp hpre)
  | cons b bs ih =>
      simp only [trieWalk]
      cases hc : t.child b with
      | absent =>
          simp only [Trie.present, Bool.false_and, Bool.false_eq_true, false_iff]
          rintro ⟨p, hne, hpre, hacc⟩
          cases p with
          | nil => exact hne rfl
          | cons x xs =>
              rcases List.cons_prefix_cons.mp hpre with ⟨hx, hxs⟩
              subst hx
              simp only [trieAccepts, hc, trieAccepts_absent] at hacc
              exact absurd hacc (by simp)
      | node f z o =>
          simp only [Trie.present, Bool.true_and]
          constructor
          · intro h
            rcases Bool.or_eq_true_iff.mp h with hf | hw
            · refine ⟨[b], by simp, by simp, ?_⟩
              simp only [trieAccepts, hc, Trie.flag]
              exact hf
            · rcases (ih (t.child b)).mp (by rw [hc]; exact hw) with ⟨p, hne, hpre, hacc⟩
              refine ⟨b :: p, by simp, ?_, ?_⟩
              · exact List.cons_prefix_cons.mpr ⟨rfl, hpre⟩
              · simpa [trieAccepts] using hacc
          · rintro ⟨p, hne, hpre, hacc⟩
            cases p with
            | nil => exact absurd rfl hne
            | cons x xs =>
                rcases List.cons_prefix_cons.mp hpre with ⟨hx, hxs⟩
                subst hx
                simp only [trieAccepts] at hacc
                cases xs with
                | nil =>
                    simp only [trieAccepts, hc, Trie.flag] at hacc
                    simp [Trie.flag, hacc]
                | cons y ys =>
                    have hw : trieWalk (t.child x) bs = true :=
                      (ih (t.child x)).mpr ⟨y :: ys, by simp, hxs, hacc⟩
                    rw [hc] at hw
                    simp [Trie.flag, hw]

/-- The bit range [start, stop) of the vector, after the clamping
startswith/endswith perform (start, stop = max(0, start),
min(len(self), stop); stop defaults to len(self)); the matching loops
iterate exactly over these bits. -/
def pySlice (b : List Bool) (start : Int) (stop : Option Int) : List Bool :=
  let stopv : Int := match stop with | none => (b.length : Int) | some s => s
  let st : Int := max 0 start
  let sp : Int := min (b.length : Int) stopv
  (b.drop st.toNat).take (sp.toNat - st.toNat)

/-- Mirrors BitVector.startswith on an already-converted candidate list:
an empty candidate returns True immediately; otherwise a prefix trie of
the candidates is walked over the bits of the clamped range. -/
def pyStartswith (b : List Bool) (cands : List (List Bool))
    (start : Int) (stop : Option Int) : Bool :=
  if cands.any (fun c => c.isEmpty) then true
  else trieWalk (buildTrie cands) (pySlice b start stop)

/-- Mirrors BitVector.endswith: an empty candidate returns True
immediately; otherwise each candidate is inserted reversed
(Trie.build_suffix_trie) and the loop reads the range's bits from its
right end leftwards, i.e. it walks that trie over the reversed range. -/
def pyEndswith (b : List Bool) (cands : List (List Bool))
    (start : Int) (stop : Option Int) : Bool :=
  if cands.any (fun c => c.isEmpty) then true
  else trieWalk (buildTrie (cands.map List.reverse)) (pySlice b start stop).reverse

/-- C9: startswith is True exactly when some candidate matches at the
start of the clamped [start, stop) range (endswith symmetrically at its
right end); in particular an empty candidate makes the result
unconditionally True, since the empty list is a prefix (suffix) of every
range. -/
theorem C9_startswith_endswith (b : List Bool) (cands : List (List Bool))
    (start : Int) (stop : Option Int) :
    (pyStartswith b cands start stop = true
      ↔ ∃ c ∈ cands, c.IsPrefix (pySlice b start stop))
    ∧ (pyEndswith b cands start stop = true
      ↔ ∃ c ∈ cands, c.IsSuffix (pySlice b start stop)) := by
  constructor
  · unfold pyStartswith
    by_cases hemp : cands.any (fun c => c.isEmpty) = true
    · rw [if_pos hemp]
      simp only [true_iff]
      rcases List.any_eq_true.mp hemp with ⟨c, hc, hce⟩
      exact ⟨c, hc, by rw [List.isEmpty_iff.mp hce]; exact List.nil_prefix⟩
    · rw [if_neg hemp]
      rw [trieWalk_iff]
      constructor
      · rintro ⟨p, _, hpre, hacc⟩
        exact ⟨p, (buildTrie_accepts cands p).mp hacc, hpre⟩
      · rintro ⟨c, hc, hpre⟩
        have hne : c ≠ [] := by
          intro hceq
          exact hemp (List.any_eq_true.mpr ⟨c, hc, by rw [hceq]; rfl⟩)
        exact ⟨c, hne, hpre, (buildTrie_accepts cands c).mpr hc⟩
  · unfold pyEndswith
    by_cases hemp : cands.any (fun c => c.isEmpty) = true
    · rw [if_pos hemp]
      simp only [true_iff]
      rcases List.any_eq_true.mp hemp with ⟨c, hc, hce⟩
      exact ⟨c, hc, by rw [List.isEmpty_iff.mp hce]; exact List.nil_suffix⟩
    · rw [if_neg hemp]
      rw [trieWalk_iff]
      constructor
      · rintro ⟨p, hne, hpre, hacc⟩
        rcases List.mem_map.mp ((buildTrie_accepts _ p).mp hacc) with ⟨c, hc, hceq⟩
        refine ⟨c, hc, ?_⟩
        rw [← List.reverse_prefix, hceq]
        exact hpre
      · rintro ⟨c, hc, hsuf⟩
        have hne : c ≠ [] := by
          intro hceq
          exact hemp (List.any_eq_true.mpr ⟨c, hc, by rw [hceq]; rfl⟩)
        refine ⟨c.reverse, by simpa using hne, ?_, ?_⟩
        · exact List.reverse_prefix.mpr hsuf
        · exact (buildTrie_accepts _ c.reverse).mpr (List.mem_map.mpr ⟨c, hc, rfl⟩)

/-! ## BitVector.replace
(src/bytemaker/bitvector/bitvector_with_bitarray_speedup.py, lines
1373-1428)

replace scans left to right with self.find(old, index).  When
len(old) == len(new) the accumulator stays None and each occurrence is
written into the receiver by slice assignment, and the receiver itself is
returned; when the lengths differ, a fresh accumulator BitVector is built
and returned, the receiver never being written.  The mutable receiver is
threaded explicitly; the scan loop runs on fuel because the source loop
need not terminate (an empty pattern with count=None loops forever).
-/

/-- Mirrors BitVector.find / bitarray.find over the whole vector: the
lowest index at or after `start` where `sub` occurs, -1 when absent; an
empty pattern matches immediately at `start` (string-find semantics, as
the bitarray library documents). -/
def findFrom (l sub : List Bool) (start : Nat) : Int :=
  if sub.isEmpty then (start : Int)
  else
    match (List.range (l.length + 1)).find? (fun i =>
        decide (start ≤ i) && decide (i + sub.length ≤ l.length)
          && decide ((l.drop i).take sub.length = sub)) with
    | some i => (i : Int)
    | none => -1

/-- Python slice assignment self[i : i + len(new)] = new for an
equal-length slice: splice `new` over that range. -/
def pySliceAssign (l : List Bool) (i : Nat) (new : List Bool) : List Bool :=
  l.take i ++ new ++ l.drop (i + new.length)

/-- Outcome of a replace call: the receiver object's final bit content,
the returned object's bit content, and whether the returned object is a
fresh accumulator (True) or the receiver itself (False). -/
structure ReplaceOut where
  receiver : List Bool
  returned : List Bool
  fresh : Bool
deriving DecidableEq

/-- The scan loop of replace, on fuel: state is (self, index,
accumulator); each found occurrence either splices `new` into self (no
accumulator) or extends the accumulator with the skipped bits and `new`;
`none` means the fuel ran out before the loop finished. -/
def underMax (maxR : Option Nat) (numR : Nat) : Bool :=
  match maxR with
  | none => true
  | some k => decide (numR < k)

def replaceLoop (old new : List Bool) (maxR : Option Nat) :
    Nat → List Bool → Nat → Option (List Bool) → Nat →
    Option (List Bool × Nat × Option (List Bool))
  | 0, _, _, _, _ => none
  | fuel + 1, self, index, acc, numR =>
      if underMax maxR numR then
        let found := findFrom self old index
        if found < 0 then some (self, index, acc)
        else
          match acc with
          | none =>
              replaceLoop old new maxR fuel
                (pySliceAssign self found.toNat new)
                (found.toNat + old.length) none (numR + 1)
          | some a =>
              replaceLoop old new maxR fuel self (found.toNat + old.length)
                (some (a ++ (self.drop index).take (found.toNat - index) ++ new))
                (numR + 1)
      else some (self, index, acc)

/-- Mirrors BitVector.replace: the accumulator exists exactly when
len(old) != len(new); after the loop, a live accumulator receives the
tail self[index:] and is returned fresh, otherwise the receiver itself is
returned. -/
def pyReplace (b old new : List Bool) (count : Option Nat) (fuel : Nat) :
    Option ReplaceOut :=
  let acc0 : Option (List Bool) := if old.length ≠ new.length then some [] else none
  match replaceLoop old new count fuel b 0 acc0 0 with
  | none => none
  | some (self, index, acc) =>
      match acc with
      | none => some ⟨self, self, false⟩
      | some a => some ⟨self, a ++ self.drop index, true⟩

theorem replaceLoop_acc_none (old new : List Bool) (maxR : Option Nat) :
    ∀ (fuel : Nat) (self : List Bool) (index numR : Nat) r,
      replaceLoop old new maxR fuel self index none numR = some r →
      r.2.2 = none := by
  intro fuel
  induction fuel with
  | zero => intro self index numR r h; exact absurd h (by simp [replaceLoop])
  | succ f ih =>
      intro self index numR r h
      unfold replaceLoop at h
      by_cases hcond : underMax maxR numR = true
      · rw [if_pos hcond] at h
        by_cases hf : findFrom self old index < 0
        · rw [if_pos hf] at h
          cases h
          rfl
        · rw [if_neg hf] at h
          exact ih _ _ _ r h
      · rw [if_neg hcond] at h
        cases h
        rfl

theorem replaceLoop_acc_some (old new : List Bool) (maxR : Option Nat) :
    ∀ (fuel : Nat) (self : List Bool) (index numR : Nat) (a : List Bool) r,
      replaceLoop old new maxR fuel self index (some a) numR = some r →
      r.1 = self ∧ ∃ a2, r.2.2 = some a2 := by
  intro fuel
  induction fuel with
  | zero => intro self index numR a r h; exact absurd h (by simp [replaceLoop])
  | succ f ih =>
      intro self index numR a r h
      unfold replaceLoop at h
      by_cases hcond : underMax maxR numR = true
      · rw [if_pos hcond] at h
        by_cases hf : findFrom self old index < 0
        · rw [if_pos hf] at h
          cases h
          exact ⟨rfl, a, rfl⟩
        · rw [if_neg hf] at h
          exact ih _ _ _ _ r h
      · rw [if_neg hcond] at h
        cases h
        exact ⟨rfl, a, rfl⟩

/-- C10: replace is in-place exactly when the pattern lengths match.  For
every terminating run: when len(old) == len(new) the returned object is
the receiver itself (fresh = false) and carries the receiver's final,
spliced content; when the lengths differ the receiver is left unchanged
(its final content is its initial content b) and a newly accumulated
vector is returned (fresh = true). -/
theorem C10_replace_inplace_iff_same_length (b old new : List Bool)
    (count : Option Nat) (fuel : Nat) (out : ReplaceOut)
    (h : pyReplace b old new count fuel = some out) :
    (old.length = new.length → out.fresh = false ∧ out.returned = out.receiver)
    ∧ (old.length ≠ new.length → out.fresh = true ∧ out.receiver = b) := by
  unfold pyReplace at h
  by_cases hlen : old.length = new.length
  · simp only [hlen, ne_eq, not_true_eq_false, if_false, reduceIte] at h
    cases hrl : replaceLoop old new count fuel b 0 none 0 with
    | none => rw [hrl] at h; exact absurd h (by simp)
    | some r =>
        rw [hrl] at h
        have hacc := replaceLoop_acc_none old new count fuel b 0 0 r hrl
        obtain ⟨self, index, acc⟩ := r
        simp only at hacc
        subst hacc
        simp only [Option.some.injEq] at h
        subst h
        exact ⟨fun _ => ⟨rfl, rfl⟩, fun hne => absurd hlen hne⟩
  · simp only [ne_eq, hlen, not_false_eq_true, if_true, reduceIte] at h
    cases hrl : replaceLoop old new count fuel b 0 (some []) 0 with
    | none => rw [hrl] at h; exact absurd h (by simp)
    | some r =>
        rw [hrl] at h
        have hacc := replaceLoop_acc_some old new count fuel b 0 0 [] r hrl
        obtain ⟨self, index, acc⟩ := r
        obtain ⟨hself, a2, ha2⟩ := hacc
        simp only at hself ha2
        subst hself
        subst ha2
        simp only [Option.some.injEq] at h
        subst h
        exact ⟨fun heq => absurd heq hlen, fun _ => ⟨rfl, rfl⟩⟩

/-- Witness for C10 at concrete inputs: replacing 1 by 0 in 10 (equal
lengths) terminates in-place returning the receiver content 00, and
replacing 1 by 01 in 10 (unequal lengths) leaves the receiver unchanged
and returns the fresh accumulator 010. -/
theorem C10_replace_witness :
    (∃ out, pyReplace [true, false] [true] [false] none 5 = some out
        ∧ out.fresh = false ∧ out.returned = out.receiver)
    ∧ (∃ out, pyReplace [true, false] [true] [false, true] none 5 = some out
        ∧ out.fresh = true ∧ out.receiver = [true, false]) := by
  constructor
  · have h := C10_replace_inplace_iff_same_length [true, false] [true] [false] none 5
      ⟨[false, false], [false, false], false⟩ (by decide)
    exact ⟨_, by decide, (h.1 rfl).1, (h.1 rfl).2⟩
  · have h := C10_replace_inplace_iff_same_length [true, false] [true] [false, true] none 5
      ⟨[true, false], [false, true, false], true⟩ (by decide)
    exact ⟨_, by decide, (h.2 (by decide)).1, (h.2 (by decide)).2⟩
